import Mathlib

/-!
# Verification of the `OpenIndexTable` open-addressing hash table

Shallow embedding of `cacher-memtable/src/open_index_table.rs`: an
open-addressing hash table for 64-bit unsigned keys and values with linear
probing, backward-shift deletion and capacity-doubling growth.  Machine
`u64` values are modelled as `Nat` with explicit `% 2 ^ 64` where the source
relies on wrapping arithmetic (the two multiplications in `scramble`); all
other arithmetic in the source stays far below `2 ^ 64`.  The storage
vector is modelled as a `List Nat`; reads are `List.getD · 0` and writes
are `List.set` (in every state constructed here the accessed indices are in
bounds, see the bounds theorems below).  The unbounded source loops are
given explicit fuel and return `Option`; `none` models divergence.
-/

namespace Cacher

/-- The modulus of Rust `u64` arithmetic. -/
def U64 : Nat := 2 ^ 64

/-- `fn scramble(k: u64) -> u64 { let hash = k * 0x9E3779B9; hash * (hash >> 16) }`
with wrapping `u64` multiplication. -/
def scramble (k : Nat) : Nat :=
  let hash := (k * 0x9E3779B9) % U64
  (hash * (hash >>> 16)) % U64

/-- `const FREE_KEY: u64 = 0;` -/
def FREE_KEY : Nat := 0

/-- `pub struct OpenIndexTable` with its seven fields. -/
structure OpenIndexTable where
  data : List Nat
  data_cap : Nat
  data_mask : Nat
  cap : Nat
  cap_mask : Nat
  size : Nat
  free_value : Nat
  free_set : Bool
deriving DecidableEq, Repr

namespace OpenIndexTable

/-- `OpenIndexTable::new()` with `initial_cap = 64` (words of storage). -/
def new : OpenIndexTable where
  data := List.replicate 64 0
  data_mask := 64 - 1
  data_cap := 64
  cap := ((64 >>> 1) / 16) * 14
  cap_mask := (64 >>> 1) - 1
  free_value := 0
  free_set := false
  size := 0

/-- `fn index(&self, k: u64) -> u64 { (scramble(k) & self.cap_mask) << 1 }` -/
def index (t : OpenIndexTable) (k : Nat) : Nat :=
  (scramble k &&& t.cap_mask) <<< 1

/-- `fn next(&self, index: u64) -> u64 { (index + 2) & self.data_mask }` -/
def next (t : OpenIndexTable) (i : Nat) : Nat :=
  (i + 2) &&& t.data_mask

/-- The probe loop shared by `get`, `insert` and `delete`: starting at word
index `i`, walk via `next` until the slot's key word is `FREE_KEY` or `k`,
and return that word index.  `fuel` bounds the walk; since the walk cycles
through at most `data_cap / 2` distinct word indices, fuel `data_cap`
(which every caller passes) is exhausted only when the source loop
diverges. -/
def probe (t : OpenIndexTable) (k : Nat) : Nat → Nat → Option Nat
  | 0, _ => none
  | fuel + 1, i =>
    let a := t.data.getD i 0
    if a = FREE_KEY ∨ a = k then some i
    else probe t k fuel (t.next i)

/-- `pub fn get(&self, key: u64) -> (u64, bool)`. -/
def get (t : OpenIndexTable) (key : Nat) : Option (Nat × Bool) :=
  if key = FREE_KEY then some (t.free_value, t.free_set)
  else
    match probe t key t.data_cap (t.index key) with
    | none => none
    | some i =>
      if t.data.getD i 0 = FREE_KEY then some (0, false)
      else some (t.data.getD (i + 1) 0, true)

/-- The word indices `n = 0, 2, 4, … < dataCap` visited by the reinsertion
loop of `expand` (for the even `dataCap` of every constructed state). -/
def slotIndices (dataCap : Nat) : List Nat :=
  (List.range (dataCap / 2)).map (fun j => 2 * j)

/-- The reinsertion loop of `expand`, parameterized by the insert function
of the receiving table:
`while n < self.data_cap { new.insert(self.data[n], self.data[n + 1]); n += 2; }`. -/
def reinsertWith (ins : OpenIndexTable → Nat → Nat → Option OpenIndexTable)
    (old : List Nat) : List Nat → OpenIndexTable → Option OpenIndexTable
  | [], nt => some nt
  | n :: rest, nt =>
    match ins nt (old.getD n 0) (old.getD (n + 1) 0) with
    | none => none
    | some nt' => reinsertWith ins old rest nt'

/-- The body of `fn expand(&mut self)`, parameterized by the insert
function used to rehash into the doubled table: no-op unless
`size > cap`; otherwise rehash every slot of the old storage (empty ones
included) into a table of twice the capacity. -/
def expandWith (ins : OpenIndexTable → Nat → Nat → Option OpenIndexTable)
    (t : OpenIndexTable) : Option OpenIndexTable :=
  if t.size ≤ t.cap then some t
  else
    reinsertWith ins t.data (slotIndices t.data_cap)
      { data := List.replicate (t.data_cap * 2) 0
        data_cap := t.data_cap * 2
        data_mask := t.data_cap * 2 - 1
        cap_mask := (t.data_cap * 2) >>> 1 - 1
        cap := t.cap * 2
        size := t.size
        free_value := t.free_value
        free_set := t.free_set }

/-- One fuel level of `pub fn insert(&mut self, new_key: u64, v: u64)`:
`prev` is the insert function used by a nested `expand` rehash (`none`
everywhere at fuel 0, modelling exhausted recursion depth). -/
def insertStep (prev : OpenIndexTable → Nat → Nat → Option OpenIndexTable)
    (t : OpenIndexTable) (new_key v : Nat) : Option OpenIndexTable :=
  if new_key = FREE_KEY then
    some { t with free_value := v, free_set := true }
  else
    match probe t new_key t.data_cap (t.index new_key) with
    | none => none
    | some i =>
      let a := t.data.getD i 0
      let t1 :=
        if a = FREE_KEY then
          { t with size := t.size + 1,
                   data := (t.data.set i new_key).set (i + 1) v }
        else
          { t with data := t.data.set (i + 1) v }
      expandWith prev t1

/-- `pub fn insert(&mut self, new_key: u64, v: u64)`.  `fuel` bounds the
depth of nested `expand` recursion (each level rehashes into a table of
twice the capacity using the insert function of the next lower fuel); the
probe loop is bounded by `data_cap` as in `probe`.  Defined by `Nat.rec`
so that concrete runs reduce. -/
def insert (fuel : Nat) : OpenIndexTable → Nat → Nat → Option OpenIndexTable :=
  Nat.rec
    (motive := fun _ => OpenIndexTable → Nat → Nat → Option OpenIndexTable)
    (fun t new_key v =>
      if new_key = FREE_KEY then
        some { t with free_value := v, free_set := true }
      else none)
    (fun _ prev => insertStep prev)
    fuel

/-- `fn expand(&mut self)` as a standalone operation: the growth check and
rehash, reinserting with fuel-bounded `insert`. -/
def expand (fuel : Nat) (t : OpenIndexTable) : Option OpenIndexTable :=
  expandWith (insert fuel) t

/-- The inner scan of `unshift`: from word index `current`, walk forward
until the key word is `FREE_KEY` or the cyclic-interval test says the
candidate must be moved back; return the scan position. -/
def unshiftScan (t : OpenIndexTable) (last : Nat) : Nat → Nat → Option Nat
  | 0, _ => none
  | fuel + 1, current =>
    let key := t.data.getD current 0
    if key = FREE_KEY then some current
    else
      let slot := t.index key
      if last < current then
        if slot ≤ last ∨ current < slot then some current
        else unshiftScan t last fuel (t.next current)
      else
        if slot ≤ last ∧ current < slot then some current
        else unshiftScan t last fuel (t.next current)

/-- `fn unshift(&mut self, current: u64)`, the backward-shift compaction.
`fuel` bounds the number of moves (outer-loop iterations); the inner scan
is bounded by `data_cap`.  Note the faithful rendering of the termination
branch: the source writes `self.data[key as usize] = FREE_KEY` where `key`
was just found equal to `FREE_KEY` (= 0), i.e. it writes word 0 of the
storage, not the scan position. -/
def unshift : Nat → OpenIndexTable → Nat → Option OpenIndexTable
  | 0, _, _ => none
  | fuel + 1, t, current =>
    let last := current
    match unshiftScan t last t.data_cap (t.next current) with
    | none => none
    | some c =>
      let key := t.data.getD c 0
      if key = FREE_KEY then
        some { t with data := t.data.set key FREE_KEY }
      else
        unshift fuel
          { t with
              data := (t.data.set last key).set (last + 1) (t.data.getD (c + 1) 0) }
          c

/-- `pub fn delete(&mut self, key: u64) -> (u64, bool)`.  `fuel` bounds the
backward-shift recursion; the probe loop is bounded by `data_cap`. -/
def delete (fuel : Nat) (t : OpenIndexTable) (key : Nat) :
    Option (OpenIndexTable × Nat × Bool) :=
  if key = FREE_KEY then
    some ({ t with free_set := false }, t.free_value, true)
  else
    match probe t key t.data_cap (t.index key) with
    | none => none
    | some i =>
      if t.data.getD i 0 = FREE_KEY then some (t, 0, false)
      else
        let t1 := { t with data := t.data.set i 0 }
        let v := t1.data.getD (i + 1) 0
        match unshift fuel t1 i with
        | none => none
        | some t2 => some (t2, v, true)

end OpenIndexTable

/-- Number of storage slots whose key word (entries at even positions)
holds the empty sentinel `0`. -/
def zeroSlots : List Nat → Nat
  | [] => 0
  | [k] => if k = 0 then 1 else 0
  | k :: _ :: rest => (if k = 0 then 1 else 0) + zeroSlots rest

/-- Number of storage slots whose key word (entries at even positions) is
non-zero, i.e. the number of occupied slots. -/
def occSlots : List Nat → Nat
  | [] => 0
  | [k] => if k = 0 then 0 else 1
  | k :: _ :: rest => (if k = 0 then 0 else 1) + occSlots rest

/-- The structural well-formedness every constructed table enjoys: the
storage length agrees with `data_cap`, the masks are the corresponding
power-of-two masks, and the load limit keeps the 87.5 % ratio
(`cap * 8 = slots * 7`). -/
def structural (t : OpenIndexTable) : Prop :=
  t.data.length = t.data_cap ∧
  t.data_mask = t.data_cap - 1 ∧
  t.cap_mask = t.data_cap / 2 - 1 ∧
  t.cap * 8 = (t.data_cap / 2) * 7 ∧
  ∃ m, 4 ≤ m ∧ t.data_cap = 2 ^ m

/-- Sequential insertion of a list of key/value pairs (used to build
concrete reachable states). -/
def insertList (fuel : Nat) (t : OpenIndexTable) :
    List (Nat × Nat) → Option OpenIndexTable
  | [] => some t
  | (k, v) :: rest =>
    match OpenIndexTable.insert fuel t k v with
    | none => none
    | some t' => insertList fuel t' rest

/-- States reachable from `new` through the public mutating operations
(with any fuel that lets them complete). -/
inductive Reachable : OpenIndexTable → Prop
  | base : Reachable OpenIndexTable.new
  | ins {t t' : OpenIndexTable} {fuel k v : Nat} :
      Reachable t → OpenIndexTable.insert fuel t k v = some t' → Reachable t'
  | del {t t' : OpenIndexTable} {fuel k : Nat} {r : Nat × Bool} :
      Reachable t → OpenIndexTable.delete fuel t k = some (t', r) → Reachable t'

/-! ## Basic lemmas about the embedding -/

namespace OpenIndexTable

theorem insert_zero (t : OpenIndexTable) (k v : Nat) :
    insert 0 t k v =
      if k = FREE_KEY then some { t with free_value := v, free_set := true }
      else none := rfl

theorem insert_succ (fuel : Nat) :
    insert (fuel + 1) = insertStep (insert fuel) := rfl

theorem insert_free (fuel : Nat) (t : OpenIndexTable) (v : Nat) :
    insert fuel t 0 v = some { t with free_value := v, free_set := true } := by
  cases fuel <;> rfl

theorem expand_def (fuel : Nat) (t : OpenIndexTable) :
    expand fuel t = expandWith (insert fuel) t := rfl

end OpenIndexTable

theorem getD_set_self (l : List Nat) (i x d : Nat) (h : i < l.length) :
    (l.set i x).getD i d = x := by
  simp [List.getD, List.getElem?_set_self, h]

theorem getD_set_ne (l : List Nat) {i j : Nat} (x d : Nat) (h : i ≠ j) :
    (l.set i x).getD j d = l.getD j d := by
  simp [List.getD, List.getElem?_set_ne h]

/-- The initial table satisfies the structural invariant. -/
theorem structural_new : structural OpenIndexTable.new :=
  ⟨rfl, rfl, rfl, rfl, 6, by decide, rfl⟩

/-! ## C5 — initial capacity

The spec (and claim C5) says `new()` has 64 slots, 128 storage words and
load limit 56.  In the source, `initial_cap = 64` counts storage *words*:
the table starts with 32 slots, 64 words and load limit
`((64 >> 1) / 16) * 14 = 28`. -/

/-- C5 counterexample: the freshly constructed table has 64 storage words
and load limit 28, not 128 words and load limit 56 as the claim states. -/
theorem claim_C5_counterexample :
    OpenIndexTable.new.data.length = 64 ∧ OpenIndexTable.new.cap = 28 ∧
    ¬ (OpenIndexTable.new.data.length = 128 ∧ OpenIndexTable.new.cap = 56) := by
  decide

/-- C5 (amended): `new()` constructs an empty table with 32 slots: 64
storage words, load limit 28 (87.5 % of 32), probe mask 31, word mask 63,
`occupiedCount = 0`, an empty reserved slot, and all slots empty. -/
theorem claim_C5_amended :
    OpenIndexTable.new.data.length = 64 ∧
    OpenIndexTable.new.data_cap = 64 ∧
    OpenIndexTable.new.data_cap / 2 = 32 ∧
    OpenIndexTable.new.cap = 28 ∧
    OpenIndexTable.new.cap_mask = 31 ∧
    OpenIndexTable.new.data_mask = 63 ∧
    OpenIndexTable.new.size = 0 ∧
    OpenIndexTable.new.free_set = false ∧
    zeroSlots OpenIndexTable.new.data = 32 := by
  decide

/-! ## C6 — the reserved-key delete path -/

/-- C6: for every table state, `delete(0)` clears `reservedPresent` and
returns `(reservedValue, true)` unconditionally, and `get(0)` on the
resulting state returns `(reservedValue, false)`: the stale value is
retained while presence is cleared. -/
theorem claim_C6 (t : OpenIndexTable) (fuel : Nat) :
    OpenIndexTable.delete fuel t 0 =
      some ({ t with free_set := false }, t.free_value, true) ∧
    OpenIndexTable.get { t with free_set := false } 0 =
      some (t.free_value, false) :=
  ⟨rfl, rfl⟩

/-! ## C2 — deletion does not preserve reachability of other keys

Key 15 hashes to slot 0 (`index(15) = 0`); key 1 hashes to slot 31 (word
62).  After inserting both, deleting key 1 ends its backward shift by
executing `self.data[key as usize] = FREE_KEY` with `key = 0`, zeroing
storage word 0 and thereby erasing key 15, which the delete never touched
logically.  The spec itself flags this clearing write as an apparent
off-by-reference bug (§9), so the code, not the claim, is at fault. -/

/-- C2: evaluating the code at the failing input.  Before the delete,
`get(15) = (111, true)`; `delete(1)` succeeds returning `(222, true)`;
afterwards `get(15) = (0, false)` even though only key 1 was deleted. -/
theorem claim_C2_code_bug :
    ((insertList 1 OpenIndexTable.new [(15, 111), (1, 222)]).map
        (fun t => OpenIndexTable.get t 15)) = some (some (111, true)) ∧
    ((insertList 1 OpenIndexTable.new [(15, 111), (1, 222)]).bind
        (fun t => (OpenIndexTable.delete 2 t 1).map
          (fun r => (r.2, OpenIndexTable.get r.1 15)))) =
      some ((222, true), some (0, false)) :=
  ⟨rfl, rfl⟩

/-! ## C9 — the terminating write of `unshift` targets word 0 -/

/-- Concrete table on which `unshift` terminates immediately. -/
def unshiftW : OpenIndexTable :=
  ⟨[0, 0], 2, 1, 0, 0, 0, 0, false⟩

/-- C9: (1) whenever `unshift` terminates (it only does so by reaching an
empty slot), the returned state has storage word 0 equal to the empty
sentinel — the clearing write indexes by the just-read key value 0, not by
the scan position; (2) concretely, keys 2 and 7 both hash to slot 28 (word
56); after `insert(2,10); insert(7,20); delete(2)`, the entry (7,20) has
been moved back to word 56 while its old copy at word 58 is left behind:
the last shifted entry remains duplicated. -/
theorem claim_C9 :
    (∀ (fuel : Nat) (t : OpenIndexTable) (c : Nat) (t' : OpenIndexTable),
        0 < t.data.length → OpenIndexTable.unshift fuel t c = some t' →
        t'.data.getD 0 1 = 0) ∧
    ((insertList 1 OpenIndexTable.new [(2, 10), (7, 20)]).bind
        (fun t => (OpenIndexTable.delete 2 t 2).map
          (fun r => (r.1.data.getD 56 0, r.1.data.getD 57 0,
                     r.1.data.getD 58 0, r.1.data.getD 59 0)))) =
      some (7, 20, 7, 20) := by
  constructor
  · intro fuel
    induction fuel with
    | zero => intro t c t' _ h; simp [OpenIndexTable.unshift] at h
    | succ fuel ih =>
      intro t c t' hlen h
      rw [OpenIndexTable.unshift] at h
      cases hscan : OpenIndexTable.unshiftScan t c t.data_cap (t.next c) with
      | none => rw [hscan] at h; simp at h
      | some c' =>
        rw [hscan] at h
        simp only [FREE_KEY] at h
        by_cases hk : t.data.getD c' 0 = 0
        · rw [if_pos hk] at h
          cases h
          rw [hk]
          exact getD_set_self _ _ _ _ (by simpa using hlen)
        · rw [if_neg hk] at h
          exact ih _ _ _ (by simpa using hlen) h
  · rfl

/-- Witness for the universally quantified part of C9. -/
theorem claim_C9_witness : unshiftW.data.getD 0 1 = 0 :=
  claim_C9.1 1 unshiftW 0 unshiftW (by decide) rfl

/-! ## C4 — `occupiedCount` accounting -/

/-- C4 counterexample: insert key 1 then delete it.  `size` remains 1
while no slot holds a non-zero key — `delete` never decrements `size`. -/
theorem claim_C4_counterexample :
    ((OpenIndexTable.insert 1 OpenIndexTable.new 1 2).bind
        (fun t => OpenIndexTable.delete 2 t 1)).map
          (fun r => (r.1.size, occSlots r.1.data)) = some (1, 0) ∧
    (1 : Nat) ≠ 0 :=
  ⟨rfl, by decide⟩

/-! ## Index arithmetic: evenness and bounds -/

namespace OpenIndexTable

theorem index_even (t : OpenIndexTable) (k : Nat) : t.index k % 2 = 0 := by
  show ((scramble k &&& t.cap_mask) <<< 1) % 2 = 0
  rw [Nat.shiftLeft_eq, pow_one]
  omega

theorem index_bound (t : OpenIndexTable) (k : Nat) (h : structural t) :
    t.index k % 2 = 0 ∧ t.index k + 2 ≤ t.data_cap := by
  obtain ⟨hlen, hdm, hcm, hcap, m, hm, hdc⟩ := h
  refine ⟨index_even t k, ?_⟩
  have h1 : scramble k &&& t.cap_mask ≤ t.cap_mask := Nat.and_le_right
  have h2 : t.index k = (scramble k &&& t.cap_mask) * 2 := by
    show (scramble k &&& t.cap_mask) <<< 1 = _
    rw [Nat.shiftLeft_eq, pow_one]
  have h3 : 2 ^ m / 2 * 2 = 2 ^ m := by
    rcases m with _ | m'
    · omega
    · rw [pow_succ]
      omega
  have hcm' : t.cap_mask = 2 ^ m / 2 - 1 := by rw [hcm, hdc]
  have h5 : 2 ^ 4 ≤ 2 ^ m := Nat.pow_le_pow_right (by omega) hm
  rw [h2, hdc]
  generalize hP : (2 : Nat) ^ m = P at h3 hcm' h5 ⊢
  omega

theorem next_eq_mod (t : OpenIndexTable) (i : Nat) (h : structural t) :
    t.next i = (i + 2) % t.data_cap := by
  obtain ⟨hlen, hdm, hcm, hcap, m, hm, hdc⟩ := h
  show (i + 2) &&& t.data_mask = _
  rw [hdm, hdc, Nat.and_pow_two_sub_one_eq_mod]

theorem data_cap_two_dvd (t : OpenIndexTable) (h : structural t) :
    2 ∣ t.data_cap := by
  obtain ⟨hlen, hdm, hcm, hcap, m, hm, hdc⟩ := h
  rcases m with _ | m'
  · omega
  · rw [hdc, pow_succ]
    exact dvd_mul_left 2 (2 ^ m')

theorem data_cap_pos (t : OpenIndexTable) (h : structural t) :
    0 < t.data_cap := by
  obtain ⟨hlen, hdm, hcm, hcap, m, hm, hdc⟩ := h
  rw [hdc]
  exact Nat.pos_pow_of_pos m (by omega)

theorem next_bound (t : OpenIndexTable) (i : Nat) (h : structural t)
    (h2 : i % 2 = 0) : t.next i % 2 = 0 ∧ t.next i + 2 ≤ t.data_cap := by
  have hmod := next_eq_mod t i h
  have hdvd := data_cap_two_dvd t h
  have hpos := data_cap_pos t h
  have heven : 2 ∣ (i + 2) % t.data_cap :=
    (Nat.dvd_mod_iff hdvd).mpr (by omega)
  have hlt : (i + 2) % t.data_cap < t.data_cap := Nat.mod_lt _ hpos
  rw [hmod]
  omega

end OpenIndexTable

/-! ## C7 — scramble formula, index computation, slot stepping -/

/-- C7: `scramble` is the two wrapping (mod `2 ^ 64`) multiplications by the
odd 32-bit constant `0x9E3779B9` stated by the claim; `index` is
`(scramble(k) & probeMask) << 1`, an even word offset which (for
structurally well-formed tables) lies within storage; `next` advances one
slot (two words) with wraparound over the storage array. -/
theorem claim_C7 (t : OpenIndexTable) (k i : Nat) :
    scramble k =
      (k * 0x9E3779B9 % 2 ^ 64) * ((k * 0x9E3779B9 % 2 ^ 64) >>> 16) % 2 ^ 64 ∧
    (0x9E3779B9 : Nat) % 2 = 1 ∧ (0x9E3779B9 : Nat) < 2 ^ 32 ∧
    t.index k = (scramble k &&& t.cap_mask) <<< 1 ∧
    t.index k % 2 = 0 ∧
    (structural t →
      t.index k + 1 < t.data.length ∧ t.next i = (i + 2) % t.data_cap) := by
  refine ⟨rfl, by decide, by decide, rfl, OpenIndexTable.index_even t k,
    fun h => ⟨?_, OpenIndexTable.next_eq_mod t i h⟩⟩
  have h1 := (OpenIndexTable.index_bound t k h).2
  have hlen := h.1
  omega

/-- Witness for C7 at the initial table. -/
theorem claim_C7_witness :
    OpenIndexTable.new.index 3 + 1 < OpenIndexTable.new.data.length ∧
    OpenIndexTable.new.next 62 = (62 + 2) % OpenIndexTable.new.data_cap :=
  (claim_C7 OpenIndexTable.new 3 62).2.2.2.2.2 structural_new

/-! ## C10 — all storage accesses are in bounds -/

/-- C10: for structurally well-formed tables (which all constructed states
are), `index` yields an even word offset at most `storage length − 2`, so
both the key word and the value word exist; `next` preserves evenness and
range; the reinsertion loop of `expand` only reads in-bounds word pairs;
and word 0 (the target of `unshift`'s terminating write) exists. -/
theorem claim_C10 (t : OpenIndexTable) (h : structural t) :
    (∀ k, t.index k % 2 = 0 ∧ t.index k + 1 < t.data.length) ∧
    (∀ i, i % 2 = 0 → t.next i % 2 = 0 ∧ t.next i + 1 < t.data.length) ∧
    (∀ n, n ∈ OpenIndexTable.slotIndices t.data_cap → n + 1 < t.data.length) ∧
    0 < t.data.length := by
  have hlen := h.1
  have hpos := OpenIndexTable.data_cap_pos t h
  have hdvd := OpenIndexTable.data_cap_two_dvd t h
  refine ⟨fun k => ?_, fun i hi => ?_, fun n hn => ?_, by omega⟩
  · have h1 := OpenIndexTable.index_bound t k h
    omega
  · have h1 := OpenIndexTable.next_bound t i h hi
    omega
  · simp only [OpenIndexTable.slotIndices, List.mem_map, List.mem_range] at hn
    obtain ⟨j, hj, rfl⟩ := hn
    omega

/-- Witness for C10 at the initial table. -/
theorem claim_C10_witness :
    OpenIndexTable.new.index 15 % 2 = 0 ∧
    OpenIndexTable.new.index 15 + 1 < OpenIndexTable.new.data.length ∧
    OpenIndexTable.new.next 62 % 2 = 0 ∧
    OpenIndexTable.new.next 62 + 1 < OpenIndexTable.new.data.length :=
  ⟨((claim_C10 OpenIndexTable.new structural_new).1 15).1,
   ((claim_C10 OpenIndexTable.new structural_new).1 15).2,
   ((claim_C10 OpenIndexTable.new structural_new).2.1 62 (by decide)).1,
   ((claim_C10 OpenIndexTable.new structural_new).2.1 62 (by decide)).2⟩

/-! ## Monotone facts: `free_set`, `data_cap` and `cap` never shrink -/

/-- Facts preserved from a table to any table an operation turns it into:
the reserved-presence flag is never cleared by `insert`/`expand`, and the
capacities never shrink. -/
def Mono (a b : OpenIndexTable) : Prop :=
  (a.free_set = true → b.free_set = true) ∧
  a.data_cap ≤ b.data_cap ∧ a.cap ≤ b.cap

theorem Mono.rfl (a : OpenIndexTable) : Mono a a :=
  ⟨fun h => h, Nat.le_refl _, Nat.le_refl _⟩

theorem Mono.trans {a b c : OpenIndexTable} (h1 : Mono a b) (h2 : Mono b c) :
    Mono a c :=
  ⟨fun h => h2.1 (h1.1 h), Nat.le_trans h1.2.1 h2.2.1, Nat.le_trans h1.2.2 h2.2.2⟩

theorem reinsertWith_mono {ins : OpenIndexTable → Nat → Nat → Option OpenIndexTable}
    (hins : ∀ a k v b, ins a k v = some b → Mono a b) (old : List Nat) :
    ∀ (idxs : List Nat) (nt nt' : OpenIndexTable),
      OpenIndexTable.reinsertWith ins old idxs nt = some nt' → Mono nt nt' := by
  intro idxs
  induction idxs with
  | nil =>
    intro nt nt' h
    cases h
    exact Mono.rfl _
  | cons n rest ih =>
    intro nt nt' h
    rw [OpenIndexTable.reinsertWith] at h
    cases hstep : ins nt (old.getD n 0) (old.getD (n + 1) 0) with
    | none => rw [hstep] at h; simp at h
    | some nt1 =>
      rw [hstep] at h
      exact (hins _ _ _ _ hstep).trans (ih _ _ h)

theorem expandWith_mono {ins : OpenIndexTable → Nat → Nat → Option OpenIndexTable}
    (hins : ∀ a k v b, ins a k v = some b → Mono a b)
    (t t' : OpenIndexTable) (h : OpenIndexTable.expandWith ins t = some t') :
    Mono t t' := by
  rw [OpenIndexTable.expandWith] at h
  split at h
  · cases h; exact Mono.rfl _
  · refine Mono.trans ?_ (reinsertWith_mono hins _ _ _ _ h)
    refine ⟨fun hf => hf, ?_, ?_⟩ <;> simp <;> omega

theorem insert_mono :
    ∀ (fuel : Nat) (t : OpenIndexTable) (k v : Nat) (t' : OpenIndexTable),
      OpenIndexTable.insert fuel t k v = some t' → Mono t t' := by
  intro fuel
  induction fuel with
  | zero =>
    intro t k v t' h
    rw [OpenIndexTable.insert_zero] at h
    split at h
    · cases h; exact ⟨fun _ => rfl, Nat.le_refl _, Nat.le_refl _⟩
    · simp at h
  | succ fuel ih =>
    intro t k v t' h
    rw [OpenIndexTable.insert_succ, OpenIndexTable.insertStep] at h
    split at h
    · cases h; exact ⟨fun _ => rfl, Nat.le_refl _, Nat.le_refl _⟩
    · cases hp : OpenIndexTable.probe t k t.data_cap (t.index k) with
      | none => rw [hp] at h; simp at h
      | some i =>
        rw [hp] at h
        exact Mono.trans
          (by split <;> exact ⟨fun hf => hf, Nat.le_refl _, Nat.le_refl _⟩)
          (expandWith_mono (fun a k v b hb => ih a k v b hb) _ _ h)

/-- Inserting the reserved key always succeeds and sets the side channel. -/
theorem insert_free_eq (fuel : Nat) (t : OpenIndexTable) (v : Nat) :
    OpenIndexTable.insert fuel t 0 v =
      some { t with free_value := v, free_set := true } :=
  OpenIndexTable.insert_free fuel t v

theorem reinsertWith_sets_free
    {ins : OpenIndexTable → Nat → Nat → Option OpenIndexTable}
    (hins0 : ∀ a v, ins a 0 v = some { a with free_value := v, free_set := true })
    (hmono : ∀ a k v b, ins a k v = some b → Mono a b) (old : List Nat) :
    ∀ (idxs : List Nat) (nt nt' : OpenIndexTable) (n : Nat),
      n ∈ idxs → old.getD n 0 = 0 →
      OpenIndexTable.reinsertWith ins old idxs nt = some nt' →
      nt'.free_set = true := by
  intro idxs
  induction idxs with
  | nil => intro nt nt' n hn; cases hn
  | cons j rest ih =>
    intro nt nt' n hn h0 h
    rw [OpenIndexTable.reinsertWith] at h
    cases hstep : ins nt (old.getD j 0) (old.getD (j + 1) 0) with
    | none => rw [hstep] at h; simp at h
    | some nt1 =>
      rw [hstep] at h
      rcases List.mem_cons.mp hn with rfl | hmem
      · rw [h0] at hstep
        rw [hins0 nt (old.getD (n + 1) 0)] at hstep
        cases hstep
        exact (reinsertWith_mono hmono old rest _ _ h).1 rfl
      · exact ih _ _ _ hmem h0 h

/-! ## C3 — growth does not carry the reserved side channel unchanged

`expand` reinserts *every* slot of the old storage, empty ones included;
an empty slot reinserts key 0, which takes the reserved path of `insert`
and sets `reservedPresent = true`. -/

/-- A table on which `expand` performs a doubling (`size = 4 > cap = 3`):
one occupied slot (key 1, value 9) and three empty slots. -/
def expandX : OpenIndexTable :=
  ⟨[1, 9, 0, 0, 0, 0, 0, 0], 8, 7, 3, 3, 4, 0, false⟩

/-- The table produced by `expand 1 expandX`. -/
def expandXout : OpenIndexTable :=
  ⟨List.replicate 14 0 ++ [1, 9], 16, 15, 6, 7, 5, 0, true⟩

/-- C3 counterexample: on `expandX` (where `expand` doubles), the old
state has `reservedPresent = false` and `get(0) = (0, false)`, but after
the doubling `reservedPresent = true` and `get(0) = (0, true)`: the side
channel is not carried over unchanged, and the reserved key 0 becomes
present although it was absent. -/
theorem claim_C3_counterexample :
    OpenIndexTable.expand 1 expandX = some expandXout ∧
    expandX.free_set = false ∧ expandXout.free_set = true ∧
    OpenIndexTable.get expandX 0 = some (0, false) ∧
    OpenIndexTable.get expandXout 0 = some (0, true) :=
  ⟨rfl, rfl, rfl, rfl, rfl⟩

/-- C3 (amended): when `expand` performs a doubling on a state whose old
storage contains at least one empty slot (in the reinsertion loop's
range), the resulting table has `reservedPresent = true` — regardless of
the old value — and the capacity at least doubles.  The side channel is
therefore *not* carried over unchanged. -/
theorem claim_C3_amended (fuel : Nat) (t t' : OpenIndexTable)
    (hgrow : t.cap < t.size)
    (hempty : ∃ n ∈ OpenIndexTable.slotIndices t.data_cap, t.data.getD n 0 = 0)
    (h : OpenIndexTable.expand fuel t = some t') :
    t'.free_set = true ∧ 2 * t.data_cap ≤ t'.data_cap := by
  rw [OpenIndexTable.expand_def, OpenIndexTable.expandWith] at h
  rw [if_neg (by omega)] at h
  obtain ⟨n, hn, h0⟩ := hempty
  constructor
  · exact reinsertWith_sets_free (insert_free_eq fuel)
      (fun a k v b hb => insert_mono fuel a k v b hb) _ _ _ _ _ hn h0 h
  · have := (reinsertWith_mono
      (fun a k v b hb => insert_mono fuel a k v b hb) _ _ _ _ h).2.1
    simpa [Nat.mul_comm] using this

/-- Witness for C3 (amended) on the concrete doubling `expandX`. -/
theorem claim_C3_amended_witness :
    expandXout.free_set = true ∧ 2 * expandX.data_cap ≤ expandXout.data_cap :=
  claim_C3_amended 1 expandX expandXout (by decide) (by decide) rfl

/-! ## C4 (amended) — what `size` accounting actually holds -/

theorem unshift_size :
    ∀ (fuel : Nat) (t : OpenIndexTable) (c : Nat) (t' : OpenIndexTable),
      OpenIndexTable.unshift fuel t c = some t' →
      t'.size = t.size ∧ t'.cap = t.cap ∧ t'.data_cap = t.data_cap ∧
      t'.free_set = t.free_set ∧ t'.data_mask = t.data_mask ∧
      t'.cap_mask = t.cap_mask ∧ t'.free_value = t.free_value ∧
      t'.data.length = t.data.length := by
  intro fuel
  induction fuel with
  | zero => intro t c t' h; simp [OpenIndexTable.unshift] at h
  | succ fuel ih =>
    intro t c t' h
    rw [OpenIndexTable.unshift] at h
    cases hscan : OpenIndexTable.unshiftScan t c t.data_cap (t.next c) with
    | none => rw [hscan] at h; simp at h
    | some c' =>
      rw [hscan] at h
      simp only [FREE_KEY] at h
      by_cases hk : t.data.getD c' 0 = 0
      · rw [if_pos hk] at h
        cases h
        exact ⟨rfl, rfl, rfl, rfl, rfl, rfl, rfl, by simp⟩
      · rw [if_neg hk] at h
        have := ih _ _ _ h
        simpa using this

/-- `delete` never changes `size` (nor the capacities or the side
channel's presence flag). -/
theorem delete_size (fuel : Nat) (t : OpenIndexTable) (k : Nat)
    (out : OpenIndexTable × Nat × Bool)
    (h : OpenIndexTable.delete fuel t k = some out) :
    out.1.size = t.size := by
  rw [OpenIndexTable.delete] at h
  split at h
  · cases h; rfl
  · cases hp : OpenIndexTable.probe t k t.data_cap (t.index k) with
    | none => rw [hp] at h; simp at h
    | some i =>
      rw [hp] at h
      simp only at h
      split at h
      · cases h; rfl
      · cases hu : OpenIndexTable.unshift fuel
          { t with data := t.data.set i 0 } i with
        | none => rw [hu] at h; simp at h
        | some t2 =>
          rw [hu] at h
          cases h
          exact (unshift_size fuel _ i t2 hu).1

theorem reinsertWith_post
    {ins : OpenIndexTable → Nat → Nat → Option OpenIndexTable}
    (hins : ∀ a k v b, 1 ≤ a.cap → a.size ≤ a.cap → ins a k v = some b →
      b.size ≤ b.cap ∧ 1 ≤ b.cap) (old : List Nat) :
    ∀ (idxs : List Nat) (nt nt' : OpenIndexTable),
      1 ≤ nt.cap → nt.size ≤ nt.cap →
      OpenIndexTable.reinsertWith ins old idxs nt = some nt' →
      nt'.size ≤ nt'.cap ∧ 1 ≤ nt'.cap := by
  intro idxs
  induction idxs with
  | nil =>
    intro nt nt' h1 h2 h
    cases h
    exact ⟨h2, h1⟩
  | cons n rest ih =>
    intro nt nt' h1 h2 h
    rw [OpenIndexTable.reinsertWith] at h
    cases hstep : ins nt (old.getD n 0) (old.getD (n + 1) 0) with
    | none => rw [hstep] at h; simp at h
    | some nt1 =>
      rw [hstep] at h
      have h3 := hins _ _ _ _ h1 h2 hstep
      exact ih _ _ h3.2 h3.1 h

theorem expandWith_post
    {ins : OpenIndexTable → Nat → Nat → Option OpenIndexTable}
    (hins : ∀ a k v b, 1 ≤ a.cap → a.size ≤ a.cap → ins a k v = some b →
      b.size ≤ b.cap ∧ 1 ≤ b.cap)
    (t t' : OpenIndexTable) (h1 : 1 ≤ t.cap) (h2 : t.size ≤ 2 * t.cap)
    (h : OpenIndexTable.expandWith ins t = some t') :
    t'.size ≤ t'.cap ∧ 1 ≤ t'.cap := by
  rw [OpenIndexTable.expandWith] at h
  split at h
  · cases h
    constructor
    · assumption
    · exact h1
  · exact reinsertWith_post hins _ _ _ _ (by simp; omega) (by simp; omega) h

/-- After every `insert` that returns, `size ≤ cap` holds (starting from
any state satisfying it). -/
theorem insert_post :
    ∀ (fuel : Nat) (t : OpenIndexTable) (k v : Nat) (t' : OpenIndexTable),
      1 ≤ t.cap → t.size ≤ t.cap →
      OpenIndexTable.insert fuel t k v = some t' →
      t'.size ≤ t'.cap ∧ 1 ≤ t'.cap := by
  intro fuel
  induction fuel with
  | zero =>
    intro t k v t' h1 h2 h
    rw [OpenIndexTable.insert_zero] at h
    split at h
    · cases h; exact ⟨h2, h1⟩
    · simp at h
  | succ fuel ih =>
    intro t k v t' h1 h2 h
    rw [OpenIndexTable.insert_succ, OpenIndexTable.insertStep] at h
    split at h
    · cases h; exact ⟨h2, h1⟩
    · cases hp : OpenIndexTable.probe t k t.data_cap (t.index k) with
      | none => rw [hp] at h; simp at h
      | some i =>
        rw [hp] at h
        simp only at h
        split at h
        · exact expandWith_post (fun a k v b => ih a k v b) _ _
            (by simpa using h1) (by simp; omega) h
        · exact expandWith_post (fun a k v b => ih a k v b) _ _
            (by simpa using h1) (by simp; omega) h

/-- C4 (amended): `delete` leaves `occupiedCount` unchanged (so it can
exceed the number of non-zero-key slots, as the counterexample shows),
and `occupiedCount ≤ loadLimit` holds after every insert that returns. -/
theorem claim_C4_amended :
    (∀ (fuel : Nat) (t : OpenIndexTable) (k : Nat)
        (out : OpenIndexTable × Nat × Bool),
        OpenIndexTable.delete fuel t k = some out → out.1.size = t.size) ∧
    (∀ (fuel : Nat) (t : OpenIndexTable) (k v : Nat) (t' : OpenIndexTable),
        1 ≤ t.cap → t.size ≤ t.cap →
        OpenIndexTable.insert fuel t k v = some t' → t'.size ≤ t'.cap) :=
  ⟨fun fuel t k out h => delete_size fuel t k out h,
   fun fuel t k v t' h1 h2 h => (insert_post fuel t k v t' h1 h2 h).1⟩

/-- The table produced by `insert 1 new 1 2`. -/
def insW : OpenIndexTable :=
  { OpenIndexTable.new with
      size := 1
      data := ((List.replicate 64 0).set 62 1).set 63 2 }

/-- Witness for C4 (amended): a concrete delete keeping `size`, and a
concrete insert ending with `size ≤ cap`. -/
theorem claim_C4_amended_witness :
    ({ OpenIndexTable.new with free_set := false } : OpenIndexTable).size =
      OpenIndexTable.new.size ∧
    insW.size ≤ insW.cap :=
  ⟨claim_C4_amended.1 1 OpenIndexTable.new 0 _ rfl,
   claim_C4_amended.2 1 OpenIndexTable.new 1 2 insW (by decide) (by decide) (by decide)⟩

/-! ## Probe lemmas: stopping condition, evenness, bounds, retracing -/

theorem mod_two_land (a b : Nat) (h : a % 2 = 0) : (a &&& b) % 2 = 0 := by
  have h1 : (a &&& b).testBit 0 = false := by
    rw [Nat.testBit_land]
    simp [Nat.testBit_zero, h]
  rw [Nat.testBit_zero] at h1
  have h2 : ¬((a &&& b) % 2 = 1) := by simpa using h1
  omega

theorem next_even (t : OpenIndexTable) (i : Nat) (h : i % 2 = 0) :
    t.next i % 2 = 0 :=
  mod_two_land _ _ (by omega)

/-- A successful probe stops on a slot holding the sentinel or the probed
key. -/
theorem probe_stop {t : OpenIndexTable} {k : Nat} :
    ∀ (fuel i p : Nat), OpenIndexTable.probe t k fuel i = some p →
      t.data.getD p 0 = 0 ∨ t.data.getD p 0 = k := by
  intro fuel
  induction fuel with
  | zero => intro i p h; simp [OpenIndexTable.probe] at h
  | succ fuel ih =>
    intro i p h
    rw [OpenIndexTable.probe] at h
    simp only [FREE_KEY] at h
    split at h
    · cases h; assumption
    · exact ih _ _ h

/-- Probe positions stay even. -/
theorem probe_even {t : OpenIndexTable} {k : Nat} :
    ∀ (fuel i p : Nat), i % 2 = 0 →
      OpenIndexTable.probe t k fuel i = some p → p % 2 = 0 := by
  intro fuel
  induction fuel with
  | zero => intro i p _ h; simp [OpenIndexTable.probe] at h
  | succ fuel ih =>
    intro i p hi h
    rw [OpenIndexTable.probe] at h
    split at h
    · cases h; exact hi
    · exact ih _ _ (next_even t i hi) h

/-- Probe positions stay below `data_cap` (for well-formed tables). -/
theorem probe_lt {t : OpenIndexTable} {k : Nat} (hs : structural t) :
    ∀ (fuel i p : Nat), i < t.data_cap →
      OpenIndexTable.probe t k fuel i = some p → p < t.data_cap := by
  intro fuel
  induction fuel with
  | zero => intro i p _ h; simp [OpenIndexTable.probe] at h
  | succ fuel ih =>
    intro i p hi h
    rw [OpenIndexTable.probe] at h
    split at h
    · cases h; exact hi
    · refine ih _ _ ?_ h
      rw [OpenIndexTable.next_eq_mod t i hs]
      exact Nat.mod_lt _ (OpenIndexTable.data_cap_pos t hs)

/-- Retracing a successful probe after a write at the found slot: if `t'`
agrees with `t` on every even word other than `p` and holds `k` at `p`,
then the same probe on `t'` stops at `p` again. -/
theorem probe_retrace {t t' : OpenIndexTable} {k p : Nat}
    (hmask : t'.data_mask = t.data_mask)
    (hdata : ∀ j, j % 2 = 0 → j ≠ p → t'.data.getD j 0 = t.data.getD j 0)
    (hkey : t'.data.getD p 0 = k) :
    ∀ (fuel i : Nat), i % 2 = 0 →
      OpenIndexTable.probe t k fuel i = some p →
      OpenIndexTable.probe t' k fuel i = some p := by
  intro fuel
  induction fuel with
  | zero => intro i _ h; simp [OpenIndexTable.probe] at h
  | succ fuel ih =>
    intro i hi h
    rw [OpenIndexTable.probe] at h
    rw [OpenIndexTable.probe]
    simp only [FREE_KEY] at h ⊢
    split at h
    · cases h
      rw [if_pos (Or.inr hkey)]
    · rename_i hstop
      have hip : i ≠ p := by
        intro he
        subst he
        exact hstop (probe_stop _ _ _ h)
      rw [hdata i hi hip, if_neg hstop]
      have hnext : t'.next i = t.next i := by
        show (i + 2) &&& t'.data_mask = (i + 2) &&& t.data_mask
        rw [hmask]
      rw [hnext]
      exact ih _ (next_even t i hi) h

/-! ## C1 — round-trip `insert` then `get` -/

/-- `get` finds `(v, true)` on any table that looks like `t` after a
successful write of `(k, v)` at probe position `p`. -/
theorem get_retrace {t t' : OpenIndexTable} {k v p : Nat}
    (hk : k ≠ 0)
    (hpe : OpenIndexTable.probe t k t.data_cap (t.index k) = some p)
    (hdm : t'.data_mask = t.data_mask) (hdc : t'.data_cap = t.data_cap)
    (hcm : t'.cap_mask = t.cap_mask)
    (hdata : ∀ j, j % 2 = 0 → j ≠ p → t'.data.getD j 0 = t.data.getD j 0)
    (hkey : t'.data.getD p 0 = k) (hval : t'.data.getD (p + 1) 0 = v) :
    OpenIndexTable.get t' k = some (v, true) := by
  have hidx : t'.index k = t.index k := by
    show (scramble k &&& t'.cap_mask) <<< 1 = (scramble k &&& t.cap_mask) <<< 1
    rw [hcm]
  have hretrace :=
    probe_retrace hdm hdata hkey t.data_cap (t.index k)
      (OpenIndexTable.index_even t k) hpe
  rw [OpenIndexTable.get]
  simp only [FREE_KEY]
  rw [if_neg hk, hidx, hdc, hretrace]
  simp only [hkey]
  rw [if_neg hk, hval]

/-- C1 (amended): the round trip `insert(k, v); get(k) = (v, true)` holds
for the reserved key unconditionally, and for every other key from every
structurally well-formed state provided the insert does not grow the table
(`data_cap` unchanged).  The growth case genuinely fails: see the
counterexample, where the rehash resurrects a stale duplicate value. -/
theorem claim_C1_amended (fuel : Nat) (t : OpenIndexTable) (k v : Nat)
    (t' : OpenIndexTable) (hs : structural t)
    (h : OpenIndexTable.insert fuel t k v = some t')
    (hnog : t'.data_cap = t.data_cap) :
    OpenIndexTable.get t' k = some (v, true) := by
  by_cases hk : k = 0
  · subst hk
    rw [OpenIndexTable.insert_free] at h
    cases h
    rfl
  · cases fuel with
    | zero =>
      rw [OpenIndexTable.insert_zero, if_neg (by simpa [FREE_KEY] using hk)] at h
      cases h
    | succ fuel =>
      rw [OpenIndexTable.insert_succ, OpenIndexTable.insertStep] at h
      rw [if_neg (by simpa [FREE_KEY] using hk)] at h
      cases hpe : OpenIndexTable.probe t k t.data_cap (t.index k) with
      | none => rw [hpe] at h; simp at h
      | some p =>
        rw [hpe] at h
        have hplt : p < t.data_cap := by
          refine probe_lt hs _ _ _ ?_ hpe
          have := (OpenIndexTable.index_bound t k hs).2
          omega
        have hpev : p % 2 = 0 :=
          probe_even _ _ _ (OpenIndexTable.index_even t k) hpe
        have hdvd := OpenIndexTable.data_cap_two_dvd t hs
        have hlen : t.data.length = t.data_cap := hs.1
        have hp1 : p + 1 < t.data.length := by omega
        have hplen : p < t.data.length := by omega
        -- the guard branch of expand must have been taken
        have hguard : ∀ t1 : OpenIndexTable,
            OpenIndexTable.expandWith (OpenIndexTable.insert fuel) t1 = some t' →
            t1.data_cap = t.data_cap → t1 = t' := by
          intro t1 hx ht1
          rw [OpenIndexTable.expandWith] at hx
          split at hx
          · cases hx; rfl
          · exfalso
            have hmono := (reinsertWith_mono
              (fun a k v b hb => insert_mono fuel a k v b hb) _ _ _ _ hx).2.1
            simp only at hmono
            have hpos := OpenIndexTable.data_cap_pos t hs
            omega
        -- restate `h` with the match and lets reduced (definitional)
        have h2 : OpenIndexTable.expandWith (OpenIndexTable.insert fuel)
            (if t.data.getD p 0 = FREE_KEY then
              { t with size := t.size + 1,
                       data := (t.data.set p k).set (p + 1) v }
             else { t with data := t.data.set (p + 1) v }) = some t' := h
        clear h
        split at h2
        · -- fresh claim of an empty slot
          rename_i ha
          have ht1 := hguard _ h2 rfl
          rw [← ht1]
          refine get_retrace hk hpe rfl rfl rfl ?_ ?_ ?_
          · intro j hj hjp
            show ((t.data.set p k).set (p + 1) v).getD j 0 = t.data.getD j 0
            rw [getD_set_ne _ _ _ (show p + 1 ≠ j by omega),
              getD_set_ne _ _ _ (show p ≠ j from fun he => hjp he.symm)]
          · show ((t.data.set p k).set (p + 1) v).getD p 0 = k
            rw [getD_set_ne _ _ _ (show p + 1 ≠ p by omega),
              getD_set_self _ _ _ _ (show p < t.data.length from hplen)]
          · show ((t.data.set p k).set (p + 1) v).getD (p + 1) 0 = v
            rw [getD_set_self _ _ _ _
              (show p + 1 < (t.data.set p k).length by simpa using hp1)]
        · -- overwrite of the existing slot for `k`
          rename_i ha
          have hak : t.data.getD p 0 = k := by
            rcases probe_stop _ _ _ hpe with h0 | h0
            · exact absurd h0 (by simpa [FREE_KEY] using ha)
            · exact h0
          have ht1 := hguard _ h2 rfl
          rw [← ht1]
          refine get_retrace hk hpe rfl rfl rfl ?_ ?_ ?_
          · intro j hj hjp
            show (t.data.set (p + 1) v).getD j 0 = t.data.getD j 0
            rw [getD_set_ne _ _ _ (show p + 1 ≠ j by omega)]
          · show (t.data.set (p + 1) v).getD p 0 = k
            rw [getD_set_ne _ _ _ (show p + 1 ≠ p by omega)]
            exact hak
          · show (t.data.set (p + 1) v).getD (p + 1) 0 = v
            rw [getD_set_self _ _ _ _ (show p + 1 < t.data.length from hp1)]

/-- The table produced by `insert 1 new 5 9` (`index(5) = 2`). -/
def insW5 : OpenIndexTable :=
  { OpenIndexTable.new with
      size := 1
      data := ((List.replicate 64 0).set 2 5).set 3 9 }

/-- Witness for C1 (amended) on a concrete no-growth insert. -/
theorem claim_C1_amended_witness : OpenIndexTable.get insW5 5 = some (9, true) :=
  claim_C1_amended 1 OpenIndexTable.new 5 9 insW5 structural_new
    (by decide) (by decide)

/-- Filler keys driving `size` to the load limit; all have `index ≠ 0`. -/
def c1fillers : List (Nat × Nat) :=
  [(2, 5002), (3, 5003), (4, 5004), (5, 5005), (6, 5006), (7, 5007), (8, 5008),
   (9, 5009), (10, 5010), (11, 5011), (12, 5012), (13, 5013), (14, 5014),
   (16, 5016), (17, 5017), (18, 5018), (19, 5019), (20, 5020), (21, 5021),
   (22, 5022), (23, 5023), (24, 5024), (25, 5025), (26, 5026), (27, 5027)]

/-- A reachable state breaking the round trip: keys 15 and 30 both hash to
slot 0; inserting both places 15 at word 0 and 30 at word 2.  Deleting
key 1 zeroes word 0 (the unshift defect, C9), cutting key 30's probe
chain.  25 fillers then drive `size` to the load limit 28. -/
def c1pre : Option OpenIndexTable :=
  match insertList 4 OpenIndexTable.new [(15, 100), (30, 200), (1, 300)] with
  | none => none
  | some t =>
    match OpenIndexTable.delete 64 t 1 with
    | none => none
    | some (t, _, _) => insertList 4 t c1fillers

/-- C1 counterexample: from the reachable state `c1pre`, the call
`insert(30, 999)` claims the hole at word 0, raising `size` to 29 and
triggering growth; the rehash processes word 0 before the stale duplicate
`(30, 200)` at word 2, so the duplicate's value wins and
`get(30) = (200, true)`, not `(999, true)`. -/
theorem claim_C1_counterexample :
    ((c1pre.bind fun t => OpenIndexTable.insert 4 t 30 999).bind
      fun t' => OpenIndexTable.get t' 30) = some (200, true) ∧
    some ((200 : Nat), true) ≠ some ((999 : Nat), true) :=
  ⟨by rfl, by decide⟩

/-! ## Counting empty slots: lemmas about `zeroSlots` -/

theorem zeroSlots_replicate : ∀ n : Nat, zeroSlots (List.replicate (2 * n) 0) = n := by
  intro n
  induction n with
  | zero => rfl
  | succ n ih =>
    have h : 2 * (n + 1) = 2 * n + 1 + 1 := by ring
    rw [h, List.replicate_succ, List.replicate_succ]
    show (if (0 : Nat) = 0 then 1 else 0) + zeroSlots (List.replicate (2 * n) 0) = n + 1
    rw [if_pos rfl, ih]
    omega

/-- Effect on the empty-slot count of writing `x` into an in-bounds even
(key) position. -/
theorem zeroSlots_set_even :
    ∀ (l : List Nat) (p x : Nat), p % 2 = 0 → p < l.length →
      zeroSlots (l.set p x) + (if l.getD p 0 = 0 then 1 else 0) =
      zeroSlots l + (if x = 0 then 1 else 0) := by
  intro l
  induction l using zeroSlots.induct with
  | case1 => intro p x _ h; simp at h
  | case2 =>
    intro p x hp hl
    have h0 : p = 0 := by simp at hl; omega
    subst h0
    by_cases hx : x = 0 <;> simp [zeroSlots, hx]
  | case3 k hk =>
    intro p x hp hl
    have h0 : p = 0 := by simp at hl; omega
    subst h0
    by_cases hx : x = 0 <;> simp [zeroSlots, hx, hk]
  | case4 k v rest ih =>
    intro p x hp hl
    match p, hp with
    | 0, _ =>
      show zeroSlots (x :: v :: rest) + _ = _
      by_cases hx : x = 0 <;> by_cases hk : k = 0 <;>
        simp [zeroSlots, hx, hk] <;> omega
    | (q + 2), hp =>
      have hq : q % 2 = 0 := by omega
      have hql : q < rest.length := by
        simp at hl
        omega
      show zeroSlots (k :: v :: rest.set q x) + _ = _
      have hrec := ih q x hq hql
      show (if k = 0 then 1 else 0) + zeroSlots (rest.set q x) +
          (if rest.getD q 0 = 0 then 1 else 0) =
        (if k = 0 then 1 else 0) + zeroSlots rest + (if x = 0 then 1 else 0)
      omega

/-- Writing into an odd (value) position never changes the empty-slot
count. -/
theorem zeroSlots_set_odd :
    ∀ (l : List Nat) (p x : Nat), p % 2 = 1 →
      zeroSlots (l.set p x) = zeroSlots l := by
  intro l
  induction l using zeroSlots.induct with
  | case1 => intro p x _; rfl
  | case2 =>
    intro p x hp
    match p, hp with
    | (q + 1), _ => rfl
  | case3 k hk =>
    intro p x hp
    match p, hp with
    | (q + 1), _ => rfl
  | case4 k v rest ih =>
    intro p x hp
    match p, hp with
    | 1, _ => show zeroSlots (k :: x :: rest) = _; simp [zeroSlots]
    | (q + 2), hp =>
      have hq : q % 2 = 1 := by omega
      show zeroSlots (k :: v :: rest.set q x) = _
      show (if k = 0 then 1 else 0) + zeroSlots (rest.set q x) =
        (if k = 0 then 1 else 0) + zeroSlots rest
      rw [ih q x hq]

/-- A positive empty-slot count produces a concrete empty key word. -/
theorem zeroSlots_exists :
    ∀ l : List Nat, 0 < zeroSlots l →
      ∃ j, j < l.length ∧ j % 2 = 0 ∧ l.getD j 0 = 0 := by
  intro l
  induction l using zeroSlots.induct with
  | case1 => intro h; simp [zeroSlots] at h
  | case2 => intro _; exact ⟨0, by simp, by simp, rfl⟩
  | case3 k hk =>
    intro h
    rw [zeroSlots, if_neg hk] at h
    omega
  | case4 k v rest ih =>
    intro h
    by_cases hk : k = 0
    · exact ⟨0, by simp, by simp, by simpa using hk⟩
    · rw [zeroSlots, if_neg hk] at h
      simp at h
      obtain ⟨j, hj, hje, hjd⟩ := ih h
      refine ⟨j + 2, ?_, by omega, by simpa using hjd⟩
      simp
      omega

/-! ## The reachable-state invariant and its preservation -/

/-- The invariant maintained by every public operation: structural
well-formedness, at least `slots − size` empty slots, and the load-limit
bound.  Since `cap < slots` (87.5 %), it guarantees an empty slot. -/
def Pres (t : OpenIndexTable) : Prop :=
  structural t ∧ t.data_cap / 2 ≤ zeroSlots t.data + t.size ∧ t.size ≤ t.cap

theorem structural_dc_ge (t : OpenIndexTable) (h : structural t) :
    16 ≤ t.data_cap := by
  obtain ⟨_, _, _, _, m, hm, hdc⟩ := h
  have h5 : 2 ^ 4 ≤ 2 ^ m := Nat.pow_le_pow_right (by omega) hm
  rw [hdc]
  omega

theorem structural_cap_ge (t : OpenIndexTable) (h : structural t) :
    7 ≤ t.cap := by
  have h1 := h.2.2.2.1
  have h2 := structural_dc_ge t h
  omega

/-- Fields other than `data`, `size`, `free_value`, `free_set` determine
`structural`. -/
theorem structural_of_fields {a b : OpenIndexTable} (h : structural a)
    (hd : b.data.length = a.data.length) (h1 : b.data_cap = a.data_cap)
    (h2 : b.data_mask = a.data_mask) (h3 : b.cap_mask = a.cap_mask)
    (h4 : b.cap = a.cap) : structural b := by
  obtain ⟨l, m1, m2, m3, m, hm, hdc⟩ := h
  exact ⟨by rw [hd, h1, l], by rw [h2, h1, m1], by rw [h3, h1, m2],
    by rw [h4, h1, m3], m, hm, by rw [h1, hdc]⟩

/-- The doubled table allocated by `expand` is structural. -/
theorem structural_expandNt (t : OpenIndexTable) (h : structural t) :
    structural
      ({ data := List.replicate (t.data_cap * 2) 0
         data_cap := t.data_cap * 2
         data_mask := t.data_cap * 2 - 1
         cap_mask := (t.data_cap * 2) >>> 1 - 1
         cap := t.cap * 2
         size := t.size
         free_value := t.free_value
         free_set := t.free_set } : OpenIndexTable) := by
  obtain ⟨l, m1, m2, m3, m, hm, hdc⟩ := h
  have hdvd : 2 ∣ t.data_cap := by
    rcases m with _ | m'
    · omega
    · rw [hdc, pow_succ]
      exact dvd_mul_left 2 (2 ^ m')
  refine ⟨by simp, rfl, ?_, ?_, m + 1, by omega, ?_⟩
  · show (t.data_cap * 2) >>> 1 - 1 = t.data_cap * 2 / 2 - 1
    rw [Nat.shiftRight_one]
  · show t.cap * 2 * 8 = t.data_cap * 2 / 2 * 7
    omega
  · show t.data_cap * 2 = 2 ^ (m + 1)
    rw [hdc, pow_succ]

/-- Scan positions of `unshift` stay even. -/
theorem scan_even {t : OpenIndexTable} {last : Nat} :
    ∀ (fuel cur p : Nat), cur % 2 = 0 →
      OpenIndexTable.unshiftScan t last fuel cur = some p → p % 2 = 0 := by
  intro fuel
  induction fuel with
  | zero => intro cur p _ h; simp [OpenIndexTable.unshiftScan] at h
  | succ fuel ih =>
    intro cur p hc h
    rw [OpenIndexTable.unshiftScan] at h
    split at h
    · cases h; exact hc
    · split at h
      · have h2 : (if t.index (t.data.getD cur 0) ≤ last ∨
            cur < t.index (t.data.getD cur 0) then some cur
            else OpenIndexTable.unshiftScan t last fuel (t.next cur)) = some p := h
        split at h2
        · cases h2; exact hc
        · exact ih _ _ (next_even t cur hc) h2
      · have h2 : (if t.index (t.data.getD cur 0) ≤ last ∧
            cur < t.index (t.data.getD cur 0) then some cur
            else OpenIndexTable.unshiftScan t last fuel (t.next cur)) = some p := h
        split at h2
        · cases h2; exact hc
        · exact ih _ _ (next_even t cur hc) h2

/-- Backward shifting loses at most one empty slot beyond the one at the
starting position. -/
theorem unshift_zeros :
    ∀ (fuel : Nat) (t : OpenIndexTable) (c : Nat) (t' : OpenIndexTable),
      c % 2 = 0 → c < t.data.length →
      OpenIndexTable.unshift fuel t c = some t' →
      zeroSlots t.data ≤
        zeroSlots t'.data + (if t.data.getD c 0 = 0 then 1 else 0) := by
  intro fuel
  induction fuel with
  | zero => intro t c t' _ _ h; simp [OpenIndexTable.unshift] at h
  | succ fuel ih =>
    intro t c t' hc hcl h
    rw [OpenIndexTable.unshift] at h
    cases hscan : OpenIndexTable.unshiftScan t c t.data_cap (t.next c) with
    | none => rw [hscan] at h; simp at h
    | some c' =>
      rw [hscan] at h
      simp only [FREE_KEY] at h
      by_cases hk : t.data.getD c' 0 = 0
      · -- empty found: `t' = t` with word 0 cleared
        rw [if_pos hk] at h
        cases h
        have hlen0 : 0 < t.data.length := by omega
        have hz := zeroSlots_set_even t.data 0 0 (by omega) hlen0
        rw [if_pos rfl] at hz
        have hd : (if t.data.getD 0 0 = 0 then 1 else 0) ≤ 1 := by
          split <;> omega
        rw [hk]
        show zeroSlots t.data ≤ zeroSlots (t.data.set 0 0) +
          (if t.data.getD c 0 = 0 then 1 else 0)
        omega
      · -- move the candidate at `c'` back into `c`, recurse from `c'`
        rw [if_neg hk] at h
        have hc'e : c' % 2 = 0 := scan_even _ _ _ (next_even t c hc) hscan
        have hc'l : c' < t.data.length := by
          by_contra hge
          exact hk (List.getD_eq_default _ _ (by omega))
        have hrec := ih _ _ _ hc'e (by simpa using hc'l) h
        -- the written data of the recursive call
        have hz1 : zeroSlots ((t.data.set c (t.data.getD c' 0)).set (c + 1)
            (t.data.getD (c' + 1) 0)) = zeroSlots (t.data.set c (t.data.getD c' 0)) :=
          zeroSlots_set_odd _ _ _ (by omega)
        have hz2 := zeroSlots_set_even t.data c (t.data.getD c' 0) hc hcl
        rw [if_neg hk] at hz2
        -- the key at the recursion start is the moved (non-zero) key
        have hkey : ((t.data.set c (t.data.getD c' 0)).set (c + 1)
            (t.data.getD (c' + 1) 0)).getD c' 0 = t.data.getD c' 0 := by
          rw [getD_set_ne _ _ _ (show c + 1 ≠ c' by omega)]
          by_cases hcc : c' = c
          · rw [hcc, getD_set_self _ _ _ _ hcl]
          · rw [getD_set_ne _ _ _ (show c ≠ c' from fun he => hcc he.symm)]
        have hrec2 : zeroSlots ((t.data.set c (t.data.getD c' 0)).set (c + 1)
            (t.data.getD (c' + 1) 0)) ≤ zeroSlots t'.data +
            (if ((t.data.set c (t.data.getD c' 0)).set (c + 1)
              (t.data.getD (c' + 1) 0)).getD c' 0 = 0 then 1 else 0) := hrec
        rw [hkey, if_neg hk] at hrec2
        rw [hz1] at hrec2
        omega

theorem mem_slotIndices {dataCap n : Nat}
    (h : n ∈ OpenIndexTable.slotIndices dataCap) : n % 2 = 0 ∧ n < dataCap := by
  simp only [OpenIndexTable.slotIndices, List.mem_map, List.mem_range] at h
  obtain ⟨j, hj, rfl⟩ := h
  omega

theorem reinsert_pres {ins : OpenIndexTable → Nat → Nat → Option OpenIndexTable}
    (hins : ∀ a k v b, Pres a → ins a k v = some b → Pres b) (old : List Nat) :
    ∀ (idxs : List Nat) (nt nt' : OpenIndexTable), Pres nt →
      OpenIndexTable.reinsertWith ins old idxs nt = some nt' → Pres nt' := by
  intro idxs
  induction idxs with
  | nil =>
    intro nt nt' hp h
    cases h
    exact hp
  | cons n rest ih =>
    intro nt nt' hp h
    rw [OpenIndexTable.reinsertWith] at h
    cases hstep : ins nt (old.getD n 0) (old.getD (n + 1) 0) with
    | none => rw [hstep] at h; simp at h
    | some nt1 =>
      rw [hstep] at h
      exact ih _ _ (hins _ _ _ _ hp hstep) h

theorem expandWith_pres {ins : OpenIndexTable → Nat → Nat → Option OpenIndexTable}
    (hins : ∀ a k v b, Pres a → ins a k v = some b → Pres b)
    (t t' : OpenIndexTable) (h1 : structural t)
    (h2 : t.data_cap / 2 ≤ zeroSlots t.data + t.size) (h3 : t.size ≤ 2 * t.cap)
    (h : OpenIndexTable.expandWith ins t = some t') : Pres t' := by
  rw [OpenIndexTable.expandWith] at h
  split at h
  · rename_i hg
    cases h
    exact ⟨h1, h2, hg⟩
  · refine reinsert_pres hins _ _ _ _ ⟨structural_expandNt t h1, ?_, ?_⟩ h
    · show t.data_cap * 2 / 2 ≤ zeroSlots (List.replicate (t.data_cap * 2) 0) + t.size
      have hrep := zeroSlots_replicate t.data_cap
      rw [show t.data_cap * 2 = 2 * t.data_cap by ring, hrep]
      omega
    · show t.size ≤ t.cap * 2
      omega

theorem insert_pres :
    ∀ (fuel : Nat) (t : OpenIndexTable) (k v : Nat) (t' : OpenIndexTable),
      Pres t → OpenIndexTable.insert fuel t k v = some t' → Pres t' := by
  intro fuel
  induction fuel with
  | zero =>
    intro t k v t' hp h
    rw [OpenIndexTable.insert_zero] at h
    split at h
    · cases h
      exact ⟨structural_of_fields hp.1 rfl rfl rfl rfl rfl, hp.2.1, hp.2.2⟩
    · simp at h
  | succ fuel ih =>
    intro t k v t' hp h
    obtain ⟨hs, hz, hsc⟩ := hp
    rw [OpenIndexTable.insert_succ, OpenIndexTable.insertStep] at h
    split at h
    · cases h
      exact ⟨structural_of_fields hs rfl rfl rfl rfl rfl, hz, hsc⟩
    · rename_i hk0
      cases hpe : OpenIndexTable.probe t k t.data_cap (t.index k) with
      | none => rw [hpe] at h; simp at h
      | some p =>
        rw [hpe] at h
        have hpev : p % 2 = 0 :=
          probe_even _ _ _ (OpenIndexTable.index_even t k) hpe
        have hplt : p < t.data_cap := by
          refine probe_lt hs _ _ _ ?_ hpe
          have := (OpenIndexTable.index_bound t k hs).2
          omega
        have hlen := hs.1
        have hcap7 := structural_cap_ge t hs
        have h2 : OpenIndexTable.expandWith (OpenIndexTable.insert fuel)
            (if t.data.getD p 0 = FREE_KEY then
              { t with size := t.size + 1,
                       data := (t.data.set p k).set (p + 1) v }
             else { t with data := t.data.set (p + 1) v }) = some t' := h
        clear h
        split at h2
        · rename_i ha
          refine expandWith_pres (fun a b c d he hf => ih a b c d he hf)
            _ _ ?_ ?_ ?_ h2
          · exact structural_of_fields hs (by simp) rfl rfl rfl rfl
          · show t.data_cap / 2 ≤
              zeroSlots ((t.data.set p k).set (p + 1) v) + (t.size + 1)
            have hzo := zeroSlots_set_odd (t.data.set p k) (p + 1) v (by omega)
            have hze := zeroSlots_set_even t.data p k hpev (by omega)
            rw [if_pos (show t.data.getD p 0 = 0 by simpa [FREE_KEY] using ha),
              if_neg (show ¬k = 0 by simpa [FREE_KEY] using hk0)] at hze
            rw [hzo]
            omega
          · show t.size + 1 ≤ 2 * t.cap
            omega
        · rename_i ha
          refine expandWith_pres (fun a b c d he hf => ih a b c d he hf)
            _ _ ?_ ?_ ?_ h2
          · exact structural_of_fields hs (by simp) rfl rfl rfl rfl
          · show t.data_cap / 2 ≤ zeroSlots (t.data.set (p + 1) v) + t.size
            rw [zeroSlots_set_odd t.data (p + 1) v (by omega)]
            exact hz
          · show t.size ≤ 2 * t.cap
            omega

theorem delete_pres :
    ∀ (fuel : Nat) (t : OpenIndexTable) (k : Nat)
      (out : OpenIndexTable × Nat × Bool),
      Pres t → OpenIndexTable.delete fuel t k = some out → Pres out.1 := by
  intro fuel t k out hp h
  obtain ⟨hs, hz, hsc⟩ := hp
  rw [OpenIndexTable.delete] at h
  split at h
  · cases h
    exact ⟨structural_of_fields hs rfl rfl rfl rfl rfl, hz, hsc⟩
  · rename_i hk0
    cases hpe : OpenIndexTable.probe t k t.data_cap (t.index k) with
    | none => rw [hpe] at h; simp at h
    | some p =>
      rw [hpe] at h
      have hpev : p % 2 = 0 :=
        probe_even _ _ _ (OpenIndexTable.index_even t k) hpe
      have hplt : p < t.data_cap := by
        refine probe_lt hs _ _ _ ?_ hpe
        have := (OpenIndexTable.index_bound t k hs).2
        omega
      have hlen := hs.1
      have h2 : (if t.data.getD p 0 = FREE_KEY then some (t, 0, false)
          else
            match OpenIndexTable.unshift fuel
                { t with data := t.data.set p 0 } p with
            | none => none
            | some t2 =>
              some (t2, (t.data.set p 0).getD (p + 1) 0, true)) = some out := h
      clear h
      split at h2
      · cases h2
        exact ⟨hs, hz, hsc⟩
      · rename_i ha
        cases hu : OpenIndexTable.unshift fuel
            { t with data := t.data.set p 0 } p with
        | none => rw [hu] at h2; simp at h2
        | some t2 =>
          rw [hu] at h2
          cases h2
          have hfs := unshift_size fuel _ p t2 hu
          have e1 : t2.data_cap = t.data_cap := hfs.2.2.1
          have e2 : t2.size = t.size := hfs.1
          have e3 : t2.cap = t.cap := hfs.2.1
          have hz1 := zeroSlots_set_even t.data p 0 hpev (by omega)
          rw [if_neg (show ¬t.data.getD p 0 = 0 by
            simpa [FREE_KEY] using ha), if_pos rfl] at hz1
          have hu2 : zeroSlots (t.data.set p 0) ≤ zeroSlots t2.data +
              (if (t.data.set p 0).getD p 0 = 0 then 1 else 0) :=
            unshift_zeros fuel _ p t2 hpev (by simp; omega) hu
          rw [if_pos (getD_set_self _ _ _ _ (by omega))] at hu2
          refine ⟨?_, ?_, ?_⟩
          · have hst1 : structural
                ({ t with data := t.data.set p 0 } : OpenIndexTable) :=
              structural_of_fields hs (by simp) rfl rfl rfl rfl
            exact structural_of_fields hst1 hfs.2.2.2.2.2.2.2 e1
              hfs.2.2.2.2.1 hfs.2.2.2.2.2.1 e3
          · show t2.data_cap / 2 ≤ zeroSlots t2.data + t2.size
            rw [e1, e2]
            omega
          · show t2.size ≤ t2.cap
            rw [e2, e3]
            exact hsc

theorem pres_new : Pres OpenIndexTable.new :=
  ⟨structural_new, by decide, by decide⟩

/-- Every reachable table state satisfies the invariant. -/
theorem reachable_pres : ∀ t : OpenIndexTable, Reachable t → Pres t := by
  intro t h
  induction h with
  | base => exact pres_new
  | ins hr hstep ih => exact insert_pres _ _ _ _ _ ih hstep
  | del hr hstep ih => exact delete_pres _ _ _ _ ih hstep

/-! ## C8 — the probe loops terminate on every reachable state -/

/-- A probe whose walk is guaranteed to hit a stopping slot within `fuel`
steps succeeds. -/
theorem probe_hits {t : OpenIndexTable} {k : Nat} (hs : structural t) :
    ∀ (fuel i : Nat), i < t.data_cap →
      (∃ n, n < fuel ∧
        (t.data.getD ((i + 2 * n) % t.data_cap) 0 = 0 ∨
         t.data.getD ((i + 2 * n) % t.data_cap) 0 = k)) →
      (OpenIndexTable.probe t k fuel i).isSome := by
  intro fuel
  induction fuel with
  | zero =>
    intro i _ h
    obtain ⟨n, hn, _⟩ := h
    omega
  | succ fuel ih =>
    intro i hi h
    rw [OpenIndexTable.probe]
    simp only [FREE_KEY]
    split
    · rfl
    · rename_i hstop
      obtain ⟨n, hn, hP⟩ := h
      cases n with
      | zero =>
        rw [Nat.mul_zero, Nat.add_zero, Nat.mod_eq_of_lt hi] at hP
        exact absurd hP hstop
      | succ n =>
        have hnext : t.next i = (i + 2) % t.data_cap :=
          OpenIndexTable.next_eq_mod t i hs
        refine ih (t.next i) ?_ ⟨n, by omega, ?_⟩
        · rw [hnext]
          exact Nat.mod_lt _ (OpenIndexTable.data_cap_pos t hs)
        · have harith : t.next i + 2 * n = (i + 2) % t.data_cap + 2 * n := by
            rw [hnext]
          have hmod : ((i + 2) % t.data_cap + 2 * n) % t.data_cap =
              (i + 2 * (n + 1)) % t.data_cap := by
            rw [Nat.mod_add_mod]
            congr 1
            ring
          rw [harith, hmod]
          exact hP

/-- Starting from an even in-range index, the probe walk reaches any even
in-range index within `data_cap` steps. -/
theorem exists_probe_hit {dc i0 j : Nat} (hdvd : 2 ∣ dc) (hi0 : i0 < dc)
    (hj : j < dc) (hie : i0 % 2 = 0) (hje : j % 2 = 0) :
    ∃ n, n < dc ∧ (i0 + 2 * n) % dc = j := by
  refine ⟨(j + dc - i0) % dc / 2, ?_, ?_⟩
  · have h1 : (j + dc - i0) % dc < dc := Nat.mod_lt _ (by omega)
    omega
  · have h2 : 2 ∣ (j + dc - i0) % dc :=
      (Nat.dvd_mod_iff hdvd).mpr (by omega)
    have h3 : 2 * ((j + dc - i0) % dc / 2) = (j + dc - i0) % dc := by omega
    rw [h3, Nat.add_mod_mod, show i0 + (j + dc - i0) = j + dc by omega,
      Nat.add_mod_right, Nat.mod_eq_of_lt hj]

/-- C8: on every reachable table state at least one slot is empty (the
occupied count never reaches the slot capacity), and the probe loops of
`get`, `insert` and `delete` terminate: `get` returns a result for every
key, and for every non-reserved key the shared probe loop (started at
`index k` with the `data_cap` step bound, exactly as `get`, `insert` and
`delete` start it) finds a stopping slot. -/
theorem claim_C8 (t : OpenIndexTable) (hr : Reachable t) :
    0 < zeroSlots t.data ∧
    (∀ k, (OpenIndexTable.get t k).isSome) ∧
    (∀ k, k ≠ 0 →
      (OpenIndexTable.probe t k t.data_cap (t.index k)).isSome) := by
  obtain ⟨hs, hz, hsc⟩ := reachable_pres t hr
  have hcapr := hs.2.2.2.1
  have hdc16 := structural_dc_ge t hs
  have hzpos : 0 < zeroSlots t.data := by omega
  have hlen := hs.1
  have hprobe : ∀ k, k ≠ 0 →
      (OpenIndexTable.probe t k t.data_cap (t.index k)).isSome := by
    intro k hk
    obtain ⟨j, hjlen, hje, hj0⟩ := zeroSlots_exists _ hzpos
    have hidx := OpenIndexTable.index_bound t k hs
    obtain ⟨n, hn, hnj⟩ := exists_probe_hit (OpenIndexTable.data_cap_two_dvd t hs)
      (show t.index k < t.data_cap by omega) (show j < t.data_cap by omega)
      hidx.1 hje
    exact probe_hits hs _ _ (by omega) ⟨n, hn, Or.inl (by rw [hnj]; exact hj0)⟩
  refine ⟨hzpos, fun k => ?_, hprobe⟩
  by_cases hk : k = 0
  · subst hk
    rfl
  · have hsome := hprobe k hk
    rw [OpenIndexTable.get]
    simp only [FREE_KEY]
    rw [if_neg hk]
    obtain ⟨p, hp⟩ := Option.isSome_iff_exists.mp hsome
    rw [hp]
    split
    · rename_i heq
      simp at heq
    · split <;> rfl

/-- Witness for C8 at the initial table (reachable by construction). -/
theorem claim_C8_witness :
    0 < zeroSlots OpenIndexTable.new.data ∧
    (OpenIndexTable.get OpenIndexTable.new 5).isSome :=
  ⟨(claim_C8 OpenIndexTable.new Reachable.base).1,
   (claim_C8 OpenIndexTable.new Reachable.base).2.1 5⟩

end Cacher
